import Mathlib

/-! A shallow embedding of the sample-rate conversion core of the SDK
(`math/myriotamath.h`): the circular sample store (`CircularBuffer`), the
rational approximation facility and the two streaming resamplers
(`Upsampler`, `Downsampler`), together with theorems checking the
specification's statements about them.

Machine integers (`uint64_t N`, `int64_t` indices) are modelled as `ℕ`/`ℤ`;
no operation here comes near 2^63, so wrap-around never fires (the one place
it shows, `maxn()` at `N = 0`, agrees with plain integer semantics: the
`uint64_t` value `N - 1 = 2^64 - 1` reinterpreted as `int64_t` is `-1`).
`double` values (`gamma`, `W`, tolerances) are modelled as `ℚ`.  The bitmask
`n & mask` with `mask = size - 1` and `size` a power of two is modelled as
`n % size` (Euclidean remainder), which is exactly what the mask computes on
two's-complement integers.  Functions declared in `myriotamath.h` whose
implementation file (`myriotamath.c`) is not under `src/` are modelled from
the spec and marked `Modelled from the spec:` in their doc comments. -/

/-- Modelled from the spec: `myriota_greater_power_of_two` is declared at
`math/myriotamath.h:96` ("Returns smallest power of 2 greater than or equal
to this integer") but its implementation (`myriotamath.c`) is not under
`src/`.  `gp2Go fuel p x` doubles the power-of-two accumulator `p` until it
reaches `x`; fuel `x` is more than enough. -/
def gp2Go : ℕ → ℕ → ℕ → ℕ
  | 0, p, _ => p
  | fuel + 1, p, x => if x ≤ p then p else gp2Go fuel (2 * p) x

/-- Modelled from the spec: smallest power of two ≥ `x`. -/
def myriota_greater_power_of_two (x : ℕ) : ℕ := gp2Go x 1 x

/-- The payload of the `std::out_of_range` condition thrown by the checked
accessors (`myriotamath.h:598` and `:607`): the offending index together with
the two ends of the currently valid window. -/
structure RangeErr where
  idx : ℤ
  lo : ℤ
  hi : ℤ
deriving DecidableEq

/-- The type-generic circular buffer `CircularBuffer<T>`
(`math/myriotamath.h:563`).  `buf` is the backing vector (`std::vector<T>`),
`size` its length (always a power of two for reachable states), `N` the
total number of elements ever pushed (`uint64_t N`). -/
structure CircularBuffer (T : Type) where
  size : ℕ
  buf : List T
  N : ℕ

/-- The constructor `CircularBuffer(size, init)` (`myriotamath.h:571`): the
actual size is `myriota_greater_power_of_two(size + 1)` and every entry is
initialised to `init`. -/
def mkCircularBuffer {T : Type} (capacity : ℕ) (init : T) : CircularBuffer T :=
  { size := myriota_greater_power_of_two (capacity + 1)
    buf := List.replicate (myriota_greater_power_of_two (capacity + 1)) init
    N := 0 }

/-- `push` (`myriotamath.h:578`): `buf[N & mask] = elem; N++`. -/
def CircularBuffer.push {T : Type} (b : CircularBuffer T) (elem : T) : CircularBuffer T :=
  { b with buf := b.buf.set (b.N % b.size) elem, N := b.N + 1 }

/-- `pushed()` (`myriotamath.h:584`). -/
def CircularBuffer.pushed {T : Type} (b : CircularBuffer T) : ℕ := b.N

/-- `maxn()` (`myriotamath.h:587`): `N - 1`. -/
def CircularBuffer.maxn {T : Type} (b : CircularBuffer T) : ℤ := (b.N : ℤ) - 1

/-- `minn()` (`myriotamath.h:588`): `N - size`. -/
def CircularBuffer.minn {T : Type} (b : CircularBuffer T) : ℤ := (b.N : ℤ) - (b.size : ℤ)

/-- The unchecked read `operator()(n)` (`myriotamath.h:591`):
`buf[n & mask]`. -/
def CircularBuffer.read {T : Type} [Inhabited T] (b : CircularBuffer T) (n : ℤ) : T :=
  b.buf.getD (n % (b.size : ℤ)).toNat default

/-- The checked read `at(n)` (`myriotamath.h:596`): returns the element when
`minn() ≤ n ≤ maxn()` and otherwise throws `std::out_of_range` carrying `n`,
`minn()` and `maxn()`.  (`at` is a reserved word in Lean, hence `at'`.) -/
def CircularBuffer.at' {T : Type} [Inhabited T] (b : CircularBuffer T) (n : ℤ) :
    Except RangeErr T :=
  if b.minn ≤ n ∧ n ≤ b.maxn then .ok (b.read n) else .error ⟨n, b.minn, b.maxn⟩

/-- The checked write `set(n, v)` (`myriotamath.h:603`): writes `buf[n & mask]`
when `minn() ≤ n ≤ maxn()` and otherwise throws `std::out_of_range` carrying
`n`, `minn()` and `maxn()`. -/
def CircularBuffer.set {T : Type} (b : CircularBuffer T) (n : ℤ) (v : T) :
    Except RangeErr (CircularBuffer T) :=
  if b.minn ≤ n ∧ n ≤ b.maxn then
    .ok { b with buf := b.buf.set (n % (b.size : ℤ)).toNat v }
  else .error ⟨n, b.minn, b.maxn⟩

/-- Pushing a whole list of samples, one `push` at a time. -/
def CircularBuffer.pushList {T : Type} (b : CircularBuffer T) (vs : List T) : CircularBuffer T :=
  vs.foldl CircularBuffer.push b

/-- The rational number type `myriota_rational` (`myriotamath.h:299`):
numerator `p`, denominator `q`. -/
structure myriota_rational where
  p : ℤ
  q : ℤ
deriving DecidableEq

/-- Modelled from the spec: `make_myriota_rational(a, b)` (declared at
`myriotamath.h:306`, implementation not under src/): the rational `a / b`
reduced to lowest terms, with the denominator kept positive (spec §3:
"denominator > 0, always stored in lowest terms"). -/
def make_myriota_rational (a b : ℤ) : myriota_rational :=
  let g : ℤ := (Int.gcd a b : ℤ)
  if b < 0 then ⟨-(a / g), -(b / g)⟩ else ⟨a / g, b / g⟩

/-- Modelled from the spec: `myriota_rational_sum` (declared at
`myriotamath.h:309`): the sum, reduced at construction. -/
def myriota_rational_sum (a b : myriota_rational) : myriota_rational :=
  make_myriota_rational (a.p * b.q + b.p * a.q) (a.q * b.q)

/-- Modelled from the spec: the continued-fraction terms of `x`, at most
`size` of them (`myriota_continued_fraction`, `myriotamath.h:294`,
implementation not under src/).  The expansion stops early when the
remainder is an integer. -/
def cfTerms : ℕ → ℚ → List ℤ
  | 0, _ => []
  | size + 1, x =>
    if x = (⌊x⌋ : ℚ) then [⌊x⌋] else ⌊x⌋ :: cfTerms size (x - (⌊x⌋ : ℚ))⁻¹

/-- The value of a finite continued fraction `[a0; a1, a2, ...]`. -/
def cfValue : List ℤ → ℚ
  | [] => 0
  | [a] => (a : ℚ)
  | a :: b :: rest => (a : ℚ) + (cfValue (b :: rest))⁻¹

/-- Modelled from the spec: the `k`-th continued-fraction convergent of `x`
(`k ≥ 1`), as a reduced `myriota_rational`. -/
def convergent (x : ℚ) (k : ℕ) : myriota_rational :=
  make_myriota_rational (cfValue (cfTerms k x)).num ((cfValue (cfTerms k x)).den : ℤ)

/-- Modelled from the spec: `myriota_best_approximations(x, size)`
(`myriotamath.h:316`): the first `size` convergents of `x`. -/
def myriota_best_approximations (x : ℚ) (size : ℕ) : List myriota_rational :=
  (List.range size).map (fun i => convergent x (i + 1))

/-- The approximation error `|x - p/q|` of a `myriota_rational`. -/
def ratErr (x : ℚ) (r : myriota_rational) : ℚ := |x - (r.p : ℚ) / (r.q : ℚ)|

/-- Modelled from the spec: the expansion loop of
`myriota_rational_approximation` (`myriotamath.h:319`, implementation not
under src/): starting from convergent `i`, return the current convergent as
soon as it is within `tol` of `x`, or as soon as the next convergent's
denominator would exceed `qmax`, or when the fuel (the remaining number of
convergents up to `k`) runs out, whichever comes first. -/
def ratApproxGo (x tol : ℚ) (qmax : ℤ) : ℕ → ℕ → myriota_rational
  | i, 0 => convergent x i
  | i, fuel + 1 =>
    if ratErr x (convergent x i) < tol then convergent x i
    else if qmax < (convergent x (i + 1)).q then convergent x i
    else ratApproxGo x tol qmax (i + 1) fuel

/-- Modelled from the spec: `myriota_rational_approximation(x, tol, qmax, k)`
(`myriotamath.h:319`). -/
def myriota_rational_approximation (x tol : ℚ) (qmax : ℤ) (k : ℕ) : myriota_rational :=
  ratApproxGo x tol qmax 1 (k - 1)

/-- The `pi` constant of the header (`myriotamath.h:48`). -/
def pi : ℚ := 3.14159265358979323846

/-- Complex baseband samples (`myriota::complex`), modelled as pairs of
rationals (real and imaginary part). -/
abbrev Cplx : Type := ℚ × ℚ

/-- Complex addition (componentwise). -/
def cadd (u v : Cplx) : Cplx := (u.1 + v.1, u.2 + v.2)

/-- Scaling a complex sample by a real kernel weight. -/
def csmul (r : ℚ) (v : Cplx) : Cplx := (r * v.1, r * v.2)

/-- The `Upsampler` class (`myriotamath.h:618`).  `W`, `gamma` and the kernel
table `g_buf` with support `[gmin, gmax]` are fixed at construction; `a` is
the internal sample store. -/
structure Upsampler where
  W : ℚ
  gamma : ℚ
  gmin : ℤ
  gmax : ℤ
  g_buf : List ℚ
  a : CircularBuffer Cplx

/-- `Upsampler::push` (`myriotamath.h:627`): forwards into the store. -/
def Upsampler.push (u : Upsampler) (x : Cplx) : Upsampler := { u with a := u.a.push x }

/-- `Upsampler::pushed` (`myriotamath.h:628`). -/
def Upsampler.pushed (u : Upsampler) : ℕ := u.a.pushed

/-- `Upsampler::minn` (`myriotamath.h:630`):
`ceil(gamma * (a.maxn() - a.size + W))`. -/
def Upsampler.minn (u : Upsampler) : ℤ :=
  ⌈u.gamma * ((u.a.maxn : ℚ) - (u.a.size : ℚ) + u.W)⌉

/-- `Upsampler::maxn` (`myriotamath.h:631`):
`floor(gamma * (a.maxn() - 1 - W))`. -/
def Upsampler.maxn (u : Upsampler) : ℤ :=
  ⌊u.gamma * ((u.a.maxn : ℚ) - 1 - u.W)⌋

/-- The kernel lookup `g(n) = g_buf[n - gmin]` (`myriotamath.h:636`). -/
def Upsampler.g (u : Upsampler) (n : ℤ) : ℚ := u.g_buf.getD (n - u.gmin).toNat 0

/-- Modelled from the spec: `Upsampler::operator()(n)` (declared at
`myriotamath.h:629`, implementation not under src/): the weighted sum, over
the kernel support `[gmin, gmax]`, of stored samples around the input
position `n / gamma` (spec §4.4); a pure function of the current state. -/
def Upsampler.evaluate (u : Upsampler) (n : ℤ) : Cplx :=
  ((List.range ((u.gmax - u.gmin).toNat + 1)).map (fun i =>
      csmul (u.g (u.gmin + (i : ℤ)))
        (u.a.read (round ((n : ℚ) / u.gamma) + u.gmin + (i : ℤ))))).foldl
    cadd ((0 : ℚ), (0 : ℚ))

/-- The `Downsampler` class (`myriotamath.h:640`); mirror of `Upsampler`. -/
structure Downsampler where
  W : ℚ
  gamma : ℚ
  gmin : ℤ
  gmax : ℤ
  g_buf : List ℚ
  a : CircularBuffer Cplx

/-- `Downsampler::push` (`myriotamath.h:649`). -/
def Downsampler.push (d : Downsampler) (x : Cplx) : Downsampler := { d with a := d.a.push x }

/-- `Downsampler::pushed` (`myriotamath.h:650`). -/
def Downsampler.pushed (d : Downsampler) : ℕ := d.a.pushed

/-- `Downsampler::minn` (`myriotamath.h:652`):
`ceil(gamma * (a.maxn() - a.size) + W)`. -/
def Downsampler.minn (d : Downsampler) : ℤ :=
  ⌈d.gamma * ((d.a.maxn : ℚ) - (d.a.size : ℚ)) + d.W⌉

/-- `Downsampler::maxn` (`myriotamath.h:653`):
`floor(gamma * (a.maxn() - 1) - W)`. -/
def Downsampler.maxn (d : Downsampler) : ℤ :=
  ⌊d.gamma * ((d.a.maxn : ℚ) - 1) - d.W⌋

/-- The kernel lookup (`myriotamath.h:658`). -/
def Downsampler.g (d : Downsampler) (n : ℤ) : ℚ := d.g_buf.getD (n - d.gmin).toNat 0

/-- Modelled from the spec: `Downsampler::operator()(n)` (declared at
`myriotamath.h:651`, implementation not under src/): mirror of the
Upsampler's windowed sum (spec §4.5); a pure function of the current
state. -/
def Downsampler.evaluate (d : Downsampler) (n : ℤ) : Cplx :=
  ((List.range ((d.gmax - d.gmin).toNat + 1)).map (fun i =>
      csmul (d.g (d.gmin + (i : ℤ)))
        (d.a.read (round ((n : ℚ) / d.gamma) + d.gmin + (i : ℤ))))).foldl
    cadd ((0 : ℚ), (0 : ℚ))

/-- Modelled from the spec: the `Upsampler(in_rate, out_rate, W)` constructor
(implementation not under src/).  `gamma` is the factor taking output
indices to the input index domain, `out_rate / in_rate` (spec glossary;
taken exact here — for rational rates the spec's rational approximation of
the ratio is exact).  The kernel support is `[-⌈gamma·W⌉, ⌈gamma·W⌉]`
(spec §4.3).  The store must hold the `W` past and the `W` future input
samples an output needs (spec §4.3, latency), so the requested capacity is
`2·⌈W⌉ + 2`; the store itself rounds this up to a power of two.  The spec
leaves the exact kernel weights open (§9) and no claim depends on them, so
the table is filled with a fixed constant weight. -/
def mkUpsampler (in_rate out_rate W : ℚ) : Upsampler :=
  { W := W
    gamma := out_rate / in_rate
    gmin := -⌈(out_rate / in_rate) * W⌉
    gmax := ⌈(out_rate / in_rate) * W⌉
    g_buf := List.replicate ((2 * ⌈(out_rate / in_rate) * W⌉).toNat + 1) (1 / (2 * W + 1))
    a := mkCircularBuffer (2 * ⌈W⌉.toNat + 2) ((0 : ℚ), (0 : ℚ)) }

/-- Modelled from the spec: the `Downsampler(in_rate, out_rate, W)`
constructor (implementation not under src/); mirror of the Upsampler
(spec §4.5): `gamma = out_rate / in_rate < 1`, and the store holds the
`W / gamma` past and future input samples one output needs. -/
def mkDownsampler (in_rate out_rate W : ℚ) : Downsampler :=
  { W := W
    gamma := out_rate / in_rate
    gmin := -⌈W / (out_rate / in_rate)⌉
    gmax := ⌈W / (out_rate / in_rate)⌉
    g_buf := List.replicate ((2 * ⌈W / (out_rate / in_rate)⌉).toNat + 1) (1 / (2 * W + 1))
    a := mkCircularBuffer (2 * ⌈W / (out_rate / in_rate)⌉.toNat + 2) ((0 : ℚ), (0 : ℚ)) }

/-- The externally visible streaming operations (spec §6): feed one input
sample, or evaluate one output index. -/
inductive ResampleOp
  | push (x : Cplx)
  | eval (n : ℤ)

/-- Whether an operation is a `push`. -/
def ResampleOp.isPush : ResampleOp → Bool
  | .push _ => true
  | .eval _ => false

/-- Running a sequence of operations against an Upsampler: `push` mutates the
store; `evaluate` is `const` (`myriotamath.h:629`) and leaves the state
unchanged. -/
def Upsampler.runOps (u : Upsampler) : List ResampleOp → Upsampler
  | [] => u
  | .push x :: rest => (u.push x).runOps rest
  | .eval _ :: rest => u.runOps rest

/-- Running a sequence of operations against a Downsampler. -/
def Downsampler.runOps (d : Downsampler) : List ResampleOp → Downsampler
  | [] => d
  | .push x :: rest => (d.push x).runOps rest
  | .eval _ :: rest => d.runOps rest

/-- The spec's formula (§4.4) for the Upsampler's lowest computable output
index: `ceil(gamma * (store.maxIndex - capacity + W))`. -/
def upsamplerMinIndexSpec (storeMaxIndex capacity : ℤ) (gamma W : ℚ) : ℤ :=
  ⌈gamma * ((storeMaxIndex : ℚ) - (capacity : ℚ) + W)⌉

/-- The spec's formula (§4.4) for the Upsampler's highest computable output
index: `floor(gamma * (store.maxIndex - 1 - W))`. -/
def upsamplerMaxIndexSpec (storeMaxIndex : ℤ) (gamma W : ℚ) : ℤ :=
  ⌊gamma * ((storeMaxIndex : ℚ) - 1 - W)⌋

theorem gp2Go_pow2 : ∀ (fuel p x : ℕ), (∃ j, p = 2 ^ j) → ∃ j, gp2Go fuel p x = 2 ^ j := by
  intro fuel
  induction fuel with
  | zero => intro p x h; exact h
  | succ fuel ih =>
    intro p x h
    simp only [gp2Go]
    split
    · exact h
    · refine ih (2 * p) x ?_
      obtain ⟨j, rfl⟩ := h
      exact ⟨j + 1, by ring⟩

theorem gp2Go_ge : ∀ (fuel p x : ℕ), x ≤ p * 2 ^ fuel → x ≤ gp2Go fuel p x := by
  intro fuel
  induction fuel with
  | zero => intro p x h; simpa [gp2Go] using h
  | succ fuel ih =>
    intro p x h
    simp only [gp2Go]
    split
    · assumption
    · refine ih (2 * p) x ?_
      calc x ≤ p * 2 ^ (fuel + 1) := h
        _ = 2 * p * 2 ^ fuel := by ring

theorem gp2Go_min : ∀ (fuel j x k : ℕ), j ≤ k → x ≤ 2 ^ k → gp2Go fuel (2 ^ j) x ≤ 2 ^ k := by
  intro fuel
  induction fuel with
  | zero =>
    intro j x k hjk _
    exact Nat.pow_le_pow_right (by norm_num) hjk
  | succ fuel ih =>
    intro j x k hjk hxk
    simp only [gp2Go]
    split
    · exact Nat.pow_le_pow_right (by norm_num) hjk
    · rename_i hlt
      have hj_lt : 2 ^ j < 2 ^ k := lt_of_lt_of_le (lt_of_not_le hlt) hxk
      have hjk' : j + 1 ≤ k := by
        by_contra hcon
        have : k ≤ j := by omega
        exact absurd (Nat.pow_le_pow_right (by norm_num) this) (not_le.mpr hj_lt)
      have h2 : 2 * 2 ^ j = 2 ^ (j + 1) := by ring
      rw [h2]
      exact ih (j + 1) x k hjk' hxk

/-- `myriota_greater_power_of_two x` is a power of two, is ≥ `x`, and is the
least power of two ≥ `x`. -/
theorem myriota_greater_power_of_two_spec (x : ℕ) :
    (∃ j, myriota_greater_power_of_two x = 2 ^ j) ∧
    x ≤ myriota_greater_power_of_two x ∧
    (∀ k : ℕ, x ≤ 2 ^ k → myriota_greater_power_of_two x ≤ 2 ^ k) := by
  refine ⟨gp2Go_pow2 x 1 x ⟨0, rfl⟩, ?_, ?_⟩
  · exact gp2Go_ge x 1 x (by simpa using le_of_lt (Nat.lt_two_pow x))
  · intro k hk
    have := gp2Go_min x 0 x k (Nat.zero_le k) hk
    simpa using this

theorem CircularBuffer.pushList_size {T : Type} (b : CircularBuffer T) (vs : List T) :
    (b.pushList vs).size = b.size := by
  induction vs generalizing b with
  | nil => rfl
  | cons v vs ih => simpa [CircularBuffer.pushList, CircularBuffer.push] using ih (b.push v)

theorem CircularBuffer.pushList_N {T : Type} (b : CircularBuffer T) (vs : List T) :
    (b.pushList vs).N = b.N + vs.length := by
  induction vs generalizing b with
  | nil => simp [CircularBuffer.pushList]
  | cons v vs ih =>
    have h := ih (b.push v)
    simp only [CircularBuffer.pushList, List.foldl_cons] at h ⊢
    rw [h]
    simp only [CircularBuffer.push, List.length_cons]
    omega

theorem CircularBuffer.pushList_bufLength {T : Type} (b : CircularBuffer T) (vs : List T) :
    (b.pushList vs).buf.length = b.buf.length := by
  induction vs generalizing b with
  | nil => rfl
  | cons v vs ih =>
    have h := ih (b.push v)
    simp only [CircularBuffer.pushList, List.foldl_cons] at h ⊢
    simpa [CircularBuffer.push] using h

theorem CircularBuffer.pushList_append {T : Type} (b : CircularBuffer T) (vs ws : List T) :
    b.pushList (vs ++ ws) = (b.pushList vs).pushList ws := by
  simp [CircularBuffer.pushList, List.foldl_append]

theorem mkCircularBuffer_size_ge {T : Type} (c : ℕ) (init : T) :
    c + 1 ≤ (mkCircularBuffer c init).size :=
  (myriota_greater_power_of_two_spec (c + 1)).2.1

theorem mkCircularBuffer_size_pos {T : Type} (c : ℕ) (init : T) :
    0 < (mkCircularBuffer c init).size :=
  lt_of_lt_of_le (Nat.succ_pos c) (mkCircularBuffer_size_ge c init)

theorem mkCircularBuffer_bufLength {T : Type} (c : ℕ) (init : T) :
    (mkCircularBuffer c init).buf.length = (mkCircularBuffer c init).size := by
  simp [mkCircularBuffer, List.length_replicate]

/-- Reading at a nonnegative (ℕ-cast) index goes to slot `j % size`. -/
theorem CircularBuffer.read_natIdx {T : Type} [Inhabited T] (b : CircularBuffer T) (j : ℕ) :
    b.read (j : ℤ) = b.buf.getD (j % b.size) default := by
  unfold CircularBuffer.read
  rw [← Int.natCast_mod, Int.toNat_natCast]

/-- After pushing `vs` into a fresh store, any global index `j` still inside
the store's window reads back the value pushed at `j`. -/
theorem CircularBuffer.read_pushList_mk {T : Type} [Inhabited T] (c : ℕ) (init : T)
    (vs : List T) :
    ∀ j : ℕ, j < vs.length → vs.length ≤ j + (mkCircularBuffer c init).size →
      ((mkCircularBuffer c init).pushList vs).read (j : ℤ) = vs.getD j default := by
  induction vs using List.reverseRecOn with
  | nil => intro j hj _; simp at hj
  | append_singleton vs v ih =>
    intro j hj hcap
    have hS : 0 < (mkCircularBuffer c init).size := mkCircularBuffer_size_pos c init
    have hstep : (mkCircularBuffer c init).pushList (vs ++ [v]) =
        ((mkCircularBuffer c init).pushList vs).push v := by
      rw [CircularBuffer.pushList_append]; rfl
    have hN : ((mkCircularBuffer c init).pushList vs).N = vs.length := by
      rw [CircularBuffer.pushList_N]; simp [mkCircularBuffer]
    have hsz : ((mkCircularBuffer c init).pushList vs).size = (mkCircularBuffer c init).size :=
      CircularBuffer.pushList_size _ _
    have hbl : ((mkCircularBuffer c init).pushList vs).buf.length =
        (mkCircularBuffer c init).size := by
      rw [CircularBuffer.pushList_bufLength, mkCircularBuffer_bufLength]
    rw [hstep, CircularBuffer.read_natIdx]
    simp only [CircularBuffer.push, List.length_append, List.length_singleton] at hj hcap ⊢
    rw [hN, hsz]
    by_cases hjL : j = vs.length
    · subst hjL
      have hlt : vs.length % (mkCircularBuffer c init).size <
          ((mkCircularBuffer c init).pushList vs).buf.length := by
        rw [hbl]; exact Nat.mod_lt _ hS
      rw [List.getD_eq_getElem?_getD, List.getElem?_set, if_pos rfl, if_pos hlt]
      simp [List.getD_eq_getElem?_getD, List.getElem?_append]
    · have hjlt : j < vs.length := by omega
      have hne : vs.length % (mkCircularBuffer c init).size ≠
          j % (mkCircularBuffer c init).size := by
        intro heq
        have hmeq : j ≡ vs.length [MOD (mkCircularBuffer c init).size] := heq.symm
        have hdvd := (Nat.modEq_iff_dvd' (le_of_lt hjlt)).mp hmeq
        have hle := Nat.le_of_dvd (by omega) hdvd
        omega
      rw [List.getD_eq_getElem?_getD, List.getElem?_set, if_neg hne]
      have hres := ih j hjlt (by omega)
      rw [CircularBuffer.read_natIdx, hsz] at hres
      rw [← List.getD_eq_getElem?_getD _ _ default, hres,
        List.getD_append _ _ _ _ hjlt]

/-- Slots of a fresh store that were never written still hold `init`. -/
theorem CircularBuffer.pushList_mk_untouched {T : Type} [Inhabited T] (c : ℕ) (init : T) :
    ∀ vs : List T, vs.length ≤ (mkCircularBuffer c init).size →
      ∀ s : ℕ, vs.length ≤ s → s < (mkCircularBuffer c init).size →
        ((mkCircularBuffer c init).pushList vs).buf.getD s default = init := by
  intro vs
  induction vs using List.reverseRecOn with
  | nil =>
    intro _ s _ hsS
    have : s < (mkCircularBuffer c init).buf.length := by
      rw [mkCircularBuffer_bufLength]; exact hsS
    simp only [CircularBuffer.pushList, List.foldl_nil, mkCircularBuffer] at this ⊢
    rw [List.getD_eq_getElem?_getD, List.getElem?_replicate,
      if_pos (by simpa using hsS)]
    rfl
  | append_singleton vs v ih =>
    intro hlen s hs hsS
    have hstep : (mkCircularBuffer c init).pushList (vs ++ [v]) =
        ((mkCircularBuffer c init).pushList vs).push v := by
      rw [CircularBuffer.pushList_append]; rfl
    have hN : ((mkCircularBuffer c init).pushList vs).N = vs.length := by
      rw [CircularBuffer.pushList_N]; simp [mkCircularBuffer]
    have hsz : ((mkCircularBuffer c init).pushList vs).size = (mkCircularBuffer c init).size :=
      CircularBuffer.pushList_size _ _
    simp only [List.length_append, List.length_singleton] at hlen hs
    have hLlt : vs.length < (mkCircularBuffer c init).size := by omega
    rw [hstep]
    simp only [CircularBuffer.push, hN, hsz]
    rw [Nat.mod_eq_of_lt hLlt, List.getD_eq_getElem?_getD, List.getElem?_set,
      if_neg (by omega)]
    rw [← List.getD_eq_getElem?_getD _ _ default]
    exact ih (by omega) s (by omega) hsS

/-- A negative index `n` in `[N - size, -1]` of a store that is not yet full
reads the construction-time `init` value. -/
theorem CircularBuffer.read_pushList_mk_neg {T : Type} [Inhabited T] (c : ℕ) (init : T)
    (vs : List T) (hlen : vs.length < (mkCircularBuffer c init).size) :
    ∀ n : ℤ, (vs.length : ℤ) - ((mkCircularBuffer c init).size : ℤ) ≤ n → n ≤ -1 →
      ((mkCircularBuffer c init).pushList vs).read n = init := by
  intro n hlo hhi
  have hS : 0 < (mkCircularBuffer c init).size := mkCircularBuffer_size_pos c init
  have hsz : ((mkCircularBuffer c init).pushList vs).size = (mkCircularBuffer c init).size :=
    CircularBuffer.pushList_size _ _
  unfold CircularBuffer.read
  rw [hsz]
  have hmod : n % ((mkCircularBuffer c init).size : ℤ) =
      n + ((mkCircularBuffer c init).size : ℤ) := by
    have h1 : (n + ((mkCircularBuffer c init).size : ℤ)) %
        ((mkCircularBuffer c init).size : ℤ) = n % ((mkCircularBuffer c init).size : ℤ) := by
      have h2 := Int.add_mul_emod_self_left (a := n)
        (b := ((mkCircularBuffer c init).size : ℤ)) (c := (1 : ℤ))
      rw [mul_one] at h2
      exact h2
    rw [← h1]
    exact Int.emod_eq_of_lt (by omega) (by omega)
  rw [hmod]
  set s : ℕ := (n + ((mkCircularBuffer c init).size : ℤ)).toNat with hs
  have hsval : (s : ℤ) = n + ((mkCircularBuffer c init).size : ℤ) :=
    Int.toNat_of_nonneg (by omega)
  have hs_lo : vs.length ≤ s := by omega
  have hs_hi : s < (mkCircularBuffer c init).size := by omega
  exact CircularBuffer.pushList_mk_untouched c init vs (le_of_lt hlen) s hs_lo hs_hi

/-- C1 (amended): at every reachable state of the SampleStore, `minIndex()`
returns `N − C` — which is negative while `N < C`, not `max(0, N − C)` — and
`maxIndex()` returns `N − 1`; exactly the indices in `[N − C, N − 1]` are
currently addressable by the checked accessor. -/
theorem C1_index_window (c : ℕ) (init : ℤ) (vs : List ℤ) :
    ((mkCircularBuffer c init).pushList vs).minn =
      ((((mkCircularBuffer c init).pushList vs).pushed : ℤ) -
        (((mkCircularBuffer c init).pushList vs).size : ℤ)) ∧
    ((mkCircularBuffer c init).pushList vs).maxn =
      ((((mkCircularBuffer c init).pushList vs).pushed : ℤ) - 1) ∧
    ∀ n : ℤ,
      (∃ t, ((mkCircularBuffer c init).pushList vs).at' n = .ok t) ↔
        (((mkCircularBuffer c init).pushList vs).minn ≤ n ∧
          n ≤ ((mkCircularBuffer c init).pushList vs).maxn) := by
  refine ⟨rfl, rfl, ?_⟩
  intro n
  by_cases h : ((mkCircularBuffer c init).pushList vs).minn ≤ n ∧
      n ≤ ((mkCircularBuffer c init).pushList vs).maxn
  · simp [CircularBuffer.at', h]
  · simp [CircularBuffer.at', h]

/-- C1 counterexample: a freshly constructed store with requested capacity 2
(actual capacity 4) and no pushes has `minn() = -4`, while the claimed value
`max(0, N − C)` is `0`. -/
theorem C1_counterexample :
    (mkCircularBuffer 2 (7 : ℤ)).minn = -4 ∧
    max 0 (((mkCircularBuffer 2 (7 : ℤ)).pushed : ℤ) -
      ((mkCircularBuffer 2 (7 : ℤ)).size : ℤ)) = 0 ∧
    (mkCircularBuffer 2 (7 : ℤ)).minn ≠
      max 0 (((mkCircularBuffer 2 (7 : ℤ)).pushed : ℤ) -
        ((mkCircularBuffer 2 (7 : ℤ)).size : ℤ)) :=
  ⟨by decide, by decide, by decide⟩

/-- C6: constructing a SampleStore with requested capacity `c` yields an
actual capacity equal to the smallest power of two ≥ `c + 1`; in particular
requested capacity 10 yields actual capacity 16. -/
theorem C6_capacity_rounding :
    (∀ (c : ℕ) (init : ℤ),
      (∃ j, (mkCircularBuffer c init).size = 2 ^ j) ∧
      c + 1 ≤ (mkCircularBuffer c init).size ∧
      (∀ m j : ℕ, m = 2 ^ j → c + 1 ≤ m → (mkCircularBuffer c init).size ≤ m)) ∧
    (mkCircularBuffer 10 (0 : ℤ)).size = 16 := by
  constructor
  · intro c init
    obtain ⟨hp, hge, hmin⟩ := myriota_greater_power_of_two_spec (c + 1)
    exact ⟨hp, hge, fun m j hm hcm => le_of_le_of_eq (hm ▸ hmin j (hm ▸ hcm)) hm.symm⟩
  · decide

theorem C6_capacity_rounding_witness :
    11 ≤ (mkCircularBuffer 10 (0 : ℤ)).size ∧ (mkCircularBuffer 10 (0 : ℤ)).size ≤ 16 :=
  ⟨(C6_capacity_rounding.1 10 0).2.1,
   (C6_capacity_rounding.1 10 0).2.2 16 4 (by decide) (by decide)⟩

/-- C2 (amended): the checked accessors fail — with an out-of-range condition
reporting `n` and the current `[minIndex, maxIndex]` window — exactly when
`n` is outside the window `[N − C, N − 1]` (not `[max(0, N − C), N − 1]`).
Inside that window an index `n ≥ 0` reads back exactly the value pushed at
`n`, while an index `n < 0` (possible only before warm-up) reads the
construction-time `init` value. -/
theorem C2_checked_access (c : ℕ) (init : ℤ) (vs : List ℤ) (b : CircularBuffer ℤ)
    (hb : b = (mkCircularBuffer c init).pushList vs) (n : ℤ) (v : ℤ) :
    (b.at' n = .error ⟨n, b.minn, b.maxn⟩ ↔
      n < (vs.length : ℤ) - (b.size : ℤ) ∨ (vs.length : ℤ) - 1 < n) ∧
    ((∃ b', b.set n v = .ok b') ↔
      ((vs.length : ℤ) - (b.size : ℤ) ≤ n ∧ n ≤ (vs.length : ℤ) - 1)) ∧
    (b.set n v = .error ⟨n, b.minn, b.maxn⟩ ↔
      n < (vs.length : ℤ) - (b.size : ℤ) ∨ (vs.length : ℤ) - 1 < n) ∧
    ((vs.length : ℤ) - (b.size : ℤ) ≤ n → 0 ≤ n → n ≤ (vs.length : ℤ) - 1 →
      b.at' n = .ok (vs.getD n.toNat 0)) ∧
    ((vs.length : ℤ) - (b.size : ℤ) ≤ n → n ≤ -1 → b.at' n = .ok init) := by
  subst hb
  have hN : ((mkCircularBuffer c init).pushList vs).N = vs.length := by
    rw [CircularBuffer.pushList_N]; simp [mkCircularBuffer]
  have hsz : ((mkCircularBuffer c init).pushList vs).size = (mkCircularBuffer c init).size :=
    CircularBuffer.pushList_size _ _
  have hminn : ((mkCircularBuffer c init).pushList vs).minn =
      (vs.length : ℤ) - (((mkCircularBuffer c init).pushList vs).size : ℤ) := by
    simp [CircularBuffer.minn, hN]
  have hmaxn : ((mkCircularBuffer c init).pushList vs).maxn = (vs.length : ℤ) - 1 := by
    simp [CircularBuffer.maxn, hN]
  refine ⟨?_, ?_, ?_, ?_, ?_⟩
  · by_cases h : ((mkCircularBuffer c init).pushList vs).minn ≤ n ∧
        n ≤ ((mkCircularBuffer c init).pushList vs).maxn
    · rw [CircularBuffer.at', if_pos h]
      rw [hminn, hmaxn] at h
      simp only [reduceCtorEq, false_iff]
      omega
    · rw [CircularBuffer.at', if_neg h]
      rw [hminn, hmaxn] at h
      simp only [Except.error.injEq, RangeErr.mk.injEq, and_self, eq_self_iff_true, true_iff]
      omega
  · by_cases h : ((mkCircularBuffer c init).pushList vs).minn ≤ n ∧
        n ≤ ((mkCircularBuffer c init).pushList vs).maxn
    · rw [CircularBuffer.set, if_pos h]
      rw [hminn, hmaxn] at h
      simp only [Except.ok.injEq, exists_eq', true_iff]
      omega
    · rw [CircularBuffer.set, if_neg h]
      rw [hminn, hmaxn] at h
      simp only [reduceCtorEq, exists_false, false_iff]
      omega
  · by_cases h : ((mkCircularBuffer c init).pushList vs).minn ≤ n ∧
        n ≤ ((mkCircularBuffer c init).pushList vs).maxn
    · rw [CircularBuffer.set, if_pos h]
      rw [hminn, hmaxn] at h
      simp only [reduceCtorEq, false_iff]
      omega
    · rw [CircularBuffer.set, if_neg h]
      rw [hminn, hmaxn] at h
      simp only [Except.error.injEq, RangeErr.mk.injEq, and_self, eq_self_iff_true, true_iff]
      omega
  · intro hlo hn0 hhi
    have h : ((mkCircularBuffer c init).pushList vs).minn ≤ n ∧
        n ≤ ((mkCircularBuffer c init).pushList vs).maxn := by
      rw [hminn, hmaxn]; omega
    rw [CircularBuffer.at', if_pos h]
    have hj1 : n.toNat < vs.length := by omega
    have hj2 : vs.length ≤ n.toNat + (mkCircularBuffer c init).size := by omega
    have hread := CircularBuffer.read_pushList_mk c init vs n.toNat hj1 hj2
    have hcast : ((n.toNat : ℕ) : ℤ) = n := Int.toNat_of_nonneg hn0
    rw [← hcast, hread]
    rfl
  · intro hlo hhi
    have hfull : vs.length < (mkCircularBuffer c init).size := by omega
    have h : ((mkCircularBuffer c init).pushList vs).minn ≤ n ∧
        n ≤ ((mkCircularBuffer c init).pushList vs).maxn := by
      rw [hminn, hmaxn]; omega
    rw [CircularBuffer.at', if_pos h]
    rw [CircularBuffer.read_pushList_mk_neg c init vs hfull n (by omega) hhi]

theorem C2_checked_access_witness :
    ((mkCircularBuffer 2 (7 : ℤ)).pushList [1, 2, 3]).at' 1 = .ok 2 ∧
    ((mkCircularBuffer 2 (7 : ℤ)).pushList [1, 2, 3]).at' 5 =
      .error ⟨5, ((mkCircularBuffer 2 (7 : ℤ)).pushList [1, 2, 3]).minn,
        ((mkCircularBuffer 2 (7 : ℤ)).pushList [1, 2, 3]).maxn⟩ := by
  have h1 := C2_checked_access 2 7 [1, 2, 3] _ rfl 1 0
  have h5 := C2_checked_access 2 7 [1, 2, 3] _ rfl 5 0
  exact ⟨h1.2.2.2.1 (by decide) (by decide) (by decide), h5.1.mpr (by decide)⟩

/-- C2 counterexample: with requested capacity 2 and no pushes, the claimed
valid window `[max(0, N − C), N − 1]` is empty, so the claim predicts that
every checked access fails; but `at(-1)` succeeds, returning the
construction-time `init` value — an index that was never pushed. -/
theorem C2_counterexample :
    ¬ (max 0 (((mkCircularBuffer 2 (7 : ℤ)).pushed : ℤ) -
          ((mkCircularBuffer 2 (7 : ℤ)).size : ℤ)) ≤ -1 ∧
        (-1 : ℤ) ≤ ((mkCircularBuffer 2 (7 : ℤ)).pushed : ℤ) - 1) ∧
    (mkCircularBuffer 2 (7 : ℤ)).at' (-1) = .ok 7 :=
  ⟨by decide, rfl⟩

/-- C8 (amended): after pushing `v0..v_{N−1}` into a fresh store, a checked
read of every index in `[max(0, N − C), N − 1]` returns exactly the value
pushed at that index, and a checked read outside `[N − C, N − 1]` raises the
out-of-range condition; but in the pre-warm-up range `[N − C, −1]` (nonempty
while `N < C`) the checked read also succeeds, returning the
construction-time `init` value rather than raising. -/
theorem C8_round_trip (c : ℕ) (init : ℤ) (vs : List ℤ) (b : CircularBuffer ℤ)
    (hb : b = (mkCircularBuffer c init).pushList vs) :
    (∀ j : ℕ, j < vs.length → (vs.length : ℤ) - (b.size : ℤ) ≤ (j : ℤ) →
      b.at' (j : ℤ) = .ok (vs.getD j 0)) ∧
    (∀ n : ℤ, n < (vs.length : ℤ) - (b.size : ℤ) ∨ (vs.length : ℤ) - 1 < n →
      b.at' n = .error ⟨n, b.minn, b.maxn⟩) ∧
    (∀ n : ℤ, (vs.length : ℤ) - (b.size : ℤ) ≤ n → n ≤ -1 → b.at' n = .ok init) := by
  subst hb
  have hN : ((mkCircularBuffer c init).pushList vs).N = vs.length := by
    rw [CircularBuffer.pushList_N]; simp [mkCircularBuffer]
  have hsz : ((mkCircularBuffer c init).pushList vs).size = (mkCircularBuffer c init).size :=
    CircularBuffer.pushList_size _ _
  have hminn : ((mkCircularBuffer c init).pushList vs).minn =
      (vs.length : ℤ) - (((mkCircularBuffer c init).pushList vs).size : ℤ) := by
    simp [CircularBuffer.minn, hN]
  have hmaxn : ((mkCircularBuffer c init).pushList vs).maxn = (vs.length : ℤ) - 1 := by
    simp [CircularBuffer.maxn, hN]
  refine ⟨?_, ?_, ?_⟩
  · intro j hj hlo
    have h : ((mkCircularBuffer c init).pushList vs).minn ≤ (j : ℤ) ∧
        (j : ℤ) ≤ ((mkCircularBuffer c init).pushList vs).maxn := by
      rw [hminn, hmaxn]; omega
    rw [CircularBuffer.at', if_pos h]
    have hj2 : vs.length ≤ j + (mkCircularBuffer c init).size := by omega
    rw [CircularBuffer.read_pushList_mk c init vs j hj hj2]
    rfl
  · intro n hout
    have h : ¬ (((mkCircularBuffer c init).pushList vs).minn ≤ n ∧
        n ≤ ((mkCircularBuffer c init).pushList vs).maxn) := by
      rw [hminn, hmaxn]; omega
    rw [CircularBuffer.at', if_neg h]
  · intro n hlo hhi
    have hfull : vs.length < (mkCircularBuffer c init).size := by omega
    have h : ((mkCircularBuffer c init).pushList vs).minn ≤ n ∧
        n ≤ ((mkCircularBuffer c init).pushList vs).maxn := by
      rw [hminn, hmaxn]; omega
    rw [CircularBuffer.at', if_pos h]
    rw [CircularBuffer.read_pushList_mk_neg c init vs hfull n (by omega) hhi]

theorem C8_round_trip_witness :
    ((mkCircularBuffer 2 (9 : ℤ)).pushList [10, 20]).at' 0 = .ok 10 ∧
    ((mkCircularBuffer 2 (9 : ℤ)).pushList [10, 20]).at' 7 = .error ⟨7, -2, 1⟩ ∧
    ((mkCircularBuffer 2 (9 : ℤ)).pushList [10, 20]).at' (-1) = .ok 9 := by
  have h := C8_round_trip 2 9 [10, 20] _ rfl
  exact ⟨h.1 0 (by decide) (by decide), h.2.1 7 (by decide),
    h.2.2 (-1) (by decide) (by decide)⟩

/-- C8 counterexample: with requested capacity 5 (actual capacity 8) and no
pushes, the index `-2` lies outside the claimed valid window
`[max(0, N − C), N − 1] = [0, -1]`, so the claim requires the checked read to
raise; instead it succeeds and returns the `init` value `3`. -/
theorem C8_counterexample :
    ((-2 : ℤ) < max 0 (((mkCircularBuffer 5 (3 : ℤ)).pushed : ℤ) -
        ((mkCircularBuffer 5 (3 : ℤ)).size : ℤ)) ∨
      ((mkCircularBuffer 5 (3 : ℤ)).pushed : ℤ) - 1 < (-2 : ℤ)) ∧
    (mkCircularBuffer 5 (3 : ℤ)).at' (-2) = .ok 3 :=
  ⟨by decide, rfl⟩

/-- C10: while fewer than `C` samples have been pushed (`N < C`), `minn()` is
negative (equal to `N − C`), and a checked read `at(n)` of any index
`n ∈ [N − C, −1]` — an index at which nothing was ever pushed — succeeds
without raising and returns the construction-time `init` value. -/
theorem C10_prefill_reads (c : ℕ) (init : ℤ) (vs : List ℤ) (b : CircularBuffer ℤ)
    (hb : b = (mkCircularBuffer c init).pushList vs)
    (hlen : vs.length < (mkCircularBuffer c init).size) :
    b.minn = (vs.length : ℤ) - (b.size : ℤ) ∧
    b.minn < 0 ∧
    ∀ n : ℤ, b.minn ≤ n → n ≤ -1 → b.at' n = .ok init := by
  subst hb
  have hN : ((mkCircularBuffer c init).pushList vs).N = vs.length := by
    rw [CircularBuffer.pushList_N]; simp [mkCircularBuffer]
  have hsz : ((mkCircularBuffer c init).pushList vs).size = (mkCircularBuffer c init).size :=
    CircularBuffer.pushList_size _ _
  have hminn : ((mkCircularBuffer c init).pushList vs).minn =
      (vs.length : ℤ) - (((mkCircularBuffer c init).pushList vs).size : ℤ) := by
    simp [CircularBuffer.minn, hN]
  have hmaxn : ((mkCircularBuffer c init).pushList vs).maxn = (vs.length : ℤ) - 1 := by
    simp [CircularBuffer.maxn, hN]
  refine ⟨hminn, by rw [hminn, hsz]; omega, ?_⟩
  intro n hlo hhi
  have h : ((mkCircularBuffer c init).pushList vs).minn ≤ n ∧
      n ≤ ((mkCircularBuffer c init).pushList vs).maxn := by
    rw [hmaxn]; exact ⟨hlo, by omega⟩
  rw [CircularBuffer.at', if_pos h]
  rw [hminn, hsz] at hlo
  rw [CircularBuffer.read_pushList_mk_neg c init vs hlen n (by omega) hhi]

theorem C10_prefill_reads_witness :
    ((mkCircularBuffer 2 (7 : ℤ)).pushList [5]).minn < 0 ∧
    ((mkCircularBuffer 2 (7 : ℤ)).pushList [5]).at' (-1) = .ok 7 ∧
    ((mkCircularBuffer 2 (7 : ℤ)).pushList [5]).at' (-3) = .ok 7 := by
  have h := C10_prefill_reads 2 7 [5] _ rfl (by decide)
  exact ⟨h.2.1, h.2.2 (-1) (by decide) (by decide), h.2.2 (-3) (by decide) (by decide)⟩

/-- The reducer keeps numerator and denominator coprime and the denominator
positive (for any nonzero input denominator). -/
theorem make_myriota_rational_reduced (a b : ℤ) (hb : b ≠ 0) :
    Int.gcd (make_myriota_rational a b).p (make_myriota_rational a b).q = 1 ∧
    0 < (make_myriota_rational a b).q := by
  have hg0 : 0 < Int.gcd a b := by
    rcases Nat.eq_zero_or_pos (Int.gcd a b) with h | h
    · exact absurd (Int.gcd_eq_zero_iff.mp h).2 hb
    · exact h
  have hgz : (0 : ℤ) < (Int.gcd a b : ℤ) := by exact_mod_cast hg0
  have hco : Int.gcd (a / (Int.gcd a b : ℤ)) (b / (Int.gcd a b : ℤ)) = 1 :=
    Int.gcd_div_gcd_div_gcd hg0
  obtain ⟨t, ht⟩ : ((Int.gcd a b : ℤ)) ∣ b := Int.gcd_dvd_right
  have htq : b / (Int.gcd a b : ℤ) = t := by
    nth_rewrite 1 [ht]
    exact Int.mul_ediv_cancel_left t (ne_of_gt hgz)
  unfold make_myriota_rational
  by_cases hbneg : b < 0
  · rw [if_pos hbneg]
    have htneg : t < 0 := by nlinarith
    constructor
    · simpa [Int.gcd, Int.natAbs_neg] using hco
    · simp only
      rw [htq]
      omega
  · rw [if_neg hbneg]
    have hbpos : 0 < b := lt_of_le_of_ne (not_lt.mp hbneg) (Ne.symm hb)
    have htpos : 0 < t := by nlinarith
    exact ⟨hco, by simp only; rw [htq]; omega⟩

/-- Every convergent is a reduced rational with positive denominator. -/
theorem convergent_reduced (x : ℚ) (k : ℕ) :
    Int.gcd (convergent x k).p (convergent x k).q = 1 ∧ 0 < (convergent x k).q := by
  unfold convergent
  exact make_myriota_rational_reduced _ _
    (Int.natCast_ne_zero.mpr (Rat.den_ne_zero _))

/-- The approximation loop always returns one of the convergents. -/
theorem ratApproxGo_is_convergent (x tol : ℚ) (qmax : ℤ) :
    ∀ (fuel i : ℕ), ∃ j, ratApproxGo x tol qmax i fuel = convergent x j := by
  intro fuel
  induction fuel with
  | zero => intro i; exact ⟨i, rfl⟩
  | succ fuel ih =>
    intro i
    simp only [ratApproxGo]
    split
    · exact ⟨i, rfl⟩
    · split
      · exact ⟨i, rfl⟩
      · exact ih (i + 1)

/-- C5: every `myriota_rational` produced by the library's rational
operations — `make_myriota_rational`, `myriota_rational_sum`,
`myriota_best_approximations` and `myriota_rational_approximation` —
satisfies `gcd(|p|, q) = 1` and `q > 0`. -/
theorem C5_rational_invariant :
    (∀ a b : ℤ, b ≠ 0 →
      Int.gcd (make_myriota_rational a b).p (make_myriota_rational a b).q = 1 ∧
      0 < (make_myriota_rational a b).q) ∧
    (∀ r s : myriota_rational, 0 < r.q → 0 < s.q →
      Int.gcd (myriota_rational_sum r s).p (myriota_rational_sum r s).q = 1 ∧
      0 < (myriota_rational_sum r s).q) ∧
    (∀ (x : ℚ) (size : ℕ) (r : myriota_rational),
      r ∈ myriota_best_approximations x size → Int.gcd r.p r.q = 1 ∧ 0 < r.q) ∧
    (∀ (x tol : ℚ) (qmax : ℤ) (k : ℕ),
      Int.gcd (myriota_rational_approximation x tol qmax k).p
          (myriota_rational_approximation x tol qmax k).q = 1 ∧
      0 < (myriota_rational_approximation x tol qmax k).q) := by
  refine ⟨fun a b hb => make_myriota_rational_reduced a b hb, ?_, ?_, ?_⟩
  · intro r s hr hs
    unfold myriota_rational_sum
    exact make_myriota_rational_reduced _ _ (by positivity)
  · intro x size r hr
    unfold myriota_best_approximations at hr
    obtain ⟨i, _, rfl⟩ := List.mem_map.mp hr
    exact convergent_reduced x (i + 1)
  · intro x tol qmax k
    obtain ⟨j, hj⟩ := ratApproxGo_is_convergent x tol qmax (k - 1) 1
    unfold myriota_rational_approximation
    rw [hj]
    exact convergent_reduced x j

theorem C5_rational_invariant_witness :
    (Int.gcd (make_myriota_rational 6 (-4)).p (make_myriota_rational 6 (-4)).q = 1 ∧
      0 < (make_myriota_rational 6 (-4)).q) ∧
    (Int.gcd (myriota_rational_sum ⟨1, 2⟩ ⟨1, 3⟩).p (myriota_rational_sum ⟨1, 2⟩ ⟨1, 3⟩).q = 1 ∧
      0 < (myriota_rational_sum ⟨1, 2⟩ ⟨1, 3⟩).q) :=
  ⟨C5_rational_invariant.1 6 (-4) (by decide),
   C5_rational_invariant.2.1 ⟨1, 2⟩ ⟨1, 3⟩ (by decide) (by decide)⟩

theorem cfTerms_one (x : ℚ) : cfTerms 1 x = [⌊x⌋] := by
  unfold cfTerms
  split <;> rfl

/-- The first convergent of `x` is `⌊x⌋ / 1`. -/
theorem convergent_one (x : ℚ) : convergent x 1 = ⟨⌊x⌋, 1⟩ := by
  unfold convergent
  rw [cfTerms_one]
  show make_myriota_rational ((⌊x⌋ : ℚ)).num (((⌊x⌋ : ℚ)).den : ℤ) = ⟨⌊x⌋, 1⟩
  rw [Rat.num_intCast, Rat.den_intCast]
  have hg : ((Int.gcd ⌊x⌋ 1 : ℕ) : ℤ) = 1 := by
    simp [Int.gcd]
  unfold make_myriota_rational
  rw [if_neg (by norm_num)]
  simp only [Nat.cast_one, hg, Int.ediv_one]

/-- The expansion loop keeps the invariant that the current convergent's
denominator is within `qmax`, so its result always meets one of the three
stopping criteria. -/
theorem ratApproxGo_spec (x tol : ℚ) (qmax : ℤ) :
    ∀ (fuel i : ℕ), (convergent x i).q ≤ qmax →
      ratErr x (ratApproxGo x tol qmax i fuel) < tol ∨
      (ratApproxGo x tol qmax i fuel).q ≤ qmax ∨
      ratApproxGo x tol qmax i fuel = convergent x (i + fuel) := by
  intro fuel
  induction fuel with
  | zero =>
    intro i hq
    right; right
    simp [ratApproxGo]
  | succ fuel ih =>
    intro i hq
    simp only [ratApproxGo]
    split
    · left; assumption
    · split
      · right; left; exact hq
      · rename_i hqnext
        have hnext : (convergent x (i + 1)).q ≤ qmax := le_of_not_lt hqnext
        have harr : i + 1 + fuel = i + (fuel + 1) := by omega
        rcases ih (i + 1) hnext with h | h | h
        · left; exact h
        · right; left; exact h
        · right; right; rw [h, harr]

/-- Once the loop reaches the fourth convergent of `pi`, it stops there: the
tolerance criterion `|pi - 355/113| < 1e-6` already holds. -/
theorem ratApproxGo_pi_four (qmax : ℤ) :
    ∀ fuel : ℕ, ratApproxGo pi (1 / 1000000) qmax 4 fuel = ⟨355, 113⟩ := by
  intro fuel
  cases fuel with
  | zero =>
    show convergent pi 4 = ⟨355, 113⟩
    with_unfolding_all decide
  | succ fuel =>
    simp only [ratApproxGo]
    rw [if_pos (by with_unfolding_all decide : ratErr pi (convergent pi 4) < 1 / 1000000)]
    with_unfolding_all decide

/-- C4: `myriota_rational_approximation(x, tol, qmax, k)` returns a rational
meeting at least one of the three stopping criteria — error below `tol`,
denominator within `qmax`, or the `k`-th convergent — whichever is reached
first; in particular for `x = pi`, `tol = 1e-6` and `qmax ≥ 113` (and enough
convergents allowed, `k ≥ 4`) it returns the convergent `355/113`. -/
theorem C4_rational_approximation :
    (∀ (x tol : ℚ) (qmax : ℤ) (k : ℕ), 1 ≤ qmax → 1 ≤ k →
      ratErr x (myriota_rational_approximation x tol qmax k) < tol ∨
      (myriota_rational_approximation x tol qmax k).q ≤ qmax ∨
      myriota_rational_approximation x tol qmax k = convergent x k) ∧
    (∀ (qmax : ℤ) (k : ℕ), 113 ≤ qmax → 4 ≤ k →
      myriota_rational_approximation pi (1 / 1000000) qmax k = ⟨355, 113⟩ ∧
      convergent pi 4 = ⟨355, 113⟩) := by
  constructor
  · intro x tol qmax k hq hk
    have h1 : (convergent x 1).q ≤ qmax := by rw [convergent_one]; exact hq
    have hspec := ratApproxGo_spec x tol qmax (k - 1) 1 h1
    have harr : 1 + (k - 1) = k := by omega
    rw [harr] at hspec
    exact hspec
  · intro qmax k hqmax hk
    refine ⟨?_, by with_unfolding_all decide⟩
    show ratApproxGo pi (1 / 1000000) qmax 1 (k - 1) = ⟨355, 113⟩
    obtain ⟨m, rfl⟩ : ∃ m, k = m + 4 := ⟨k - 4, by omega⟩
    have hm : m + 4 - 1 = m + 2 + 1 := by omega
    rw [hm]
    simp only [ratApproxGo]
    rw [if_neg (by with_unfolding_all decide : ¬ ratErr pi (convergent pi 1) < 1 / 1000000)]
    have hc2 : (convergent pi (1 + 1)).q = 7 := by with_unfolding_all decide
    rw [hc2, if_neg (by omega : ¬ qmax < (7 : ℤ))]
    show ratApproxGo pi (1 / 1000000) qmax 2 (m + 1 + 1) = ⟨355, 113⟩
    simp only [ratApproxGo]
    rw [if_neg (by with_unfolding_all decide : ¬ ratErr pi (convergent pi 2) < 1 / 1000000)]
    have hc3 : (convergent pi (2 + 1)).q = 106 := by with_unfolding_all decide
    rw [hc3, if_neg (by omega : ¬ qmax < (106 : ℤ))]
    show ratApproxGo pi (1 / 1000000) qmax 3 (m + 1) = ⟨355, 113⟩
    simp only [ratApproxGo]
    rw [if_neg (by with_unfolding_all decide : ¬ ratErr pi (convergent pi 3) < 1 / 1000000)]
    have hc4 : (convergent pi (3 + 1)).q = 113 := by with_unfolding_all decide
    rw [hc4, if_neg (by omega : ¬ qmax < (113 : ℤ))]
    exact ratApproxGo_pi_four qmax m

theorem C4_rational_approximation_witness :
    (ratErr (22 / 7) (myriota_rational_approximation (22 / 7) (1 / 10) 50 3) < 1 / 10 ∨
      (myriota_rational_approximation (22 / 7) (1 / 10) 50 3).q ≤ 50 ∨
      myriota_rational_approximation (22 / 7) (1 / 10) 50 3 = convergent (22 / 7) 3) ∧
    myriota_rational_approximation pi (1 / 1000000) 113 4 = ⟨355, 113⟩ :=
  ⟨C4_rational_approximation.1 (22 / 7) (1 / 10) 50 3 (by decide) (by decide),
   (C4_rational_approximation.2 113 4 (by decide) (by decide)).1⟩

/-- C7: at every reachable state of an Upsampler, `minn()` equals
`ceil(gamma·(store.maxIndex − capacity + W))` and `maxn()` equals
`floor(gamma·(store.maxIndex − 1 − W))`, the spec's formulas evaluated at
the internal store's maximum valid index, the store capacity, `gamma` and
`W`. -/
theorem C7_upsampler_window_formulas (u : Upsampler) :
    u.minn = upsamplerMinIndexSpec u.a.maxn (u.a.size : ℤ) u.gamma u.W ∧
    u.maxn = upsamplerMaxIndexSpec u.a.maxn u.gamma u.W := by
  constructor
  · simp [Upsampler.minn, upsamplerMinIndexSpec, Int.cast_natCast]
  · simp [Upsampler.maxn, upsamplerMaxIndexSpec]

/-- C3 counterexample: the Upsampler built for rates 1 → 2 with `W = 30`
has, immediately after construction (`pushed() = 0`), `minIndex() = -70` and
`maxIndex() = -64`: the computable window is not empty, refuting
`minIndex() > maxIndex()`. -/
theorem C3_counterexample :
    (mkUpsampler 1 2 30).pushed = 0 ∧
    (mkUpsampler 1 2 30).minn = -70 ∧
    (mkUpsampler 1 2 30).maxn = -64 ∧
    ¬ ((mkUpsampler 1 2 30).minn > (mkUpsampler 1 2 30).maxn) :=
  ⟨rfl, by with_unfolding_all decide, by with_unfolding_all decide,
    by with_unfolding_all decide⟩

/-- C3 (amended): immediately after construction (`pushed() = 0`) the
computable window contains no output index ≥ 0: `maxIndex() < 0` for both
the Upsampler and the Downsampler, for every construction with positive
rates and positive window half-width.  (The window need not be empty:
`minIndex() ≤ maxIndex()` can hold, with both ends negative, because the
store reports its never-pushed prefill slots as valid.) -/
theorem C3_warmup_window (in_rate out_rate W : ℚ)
    (hin : 0 < in_rate) (hout : 0 < out_rate) (hW : 0 < W) :
    (mkUpsampler in_rate out_rate W).pushed = 0 ∧
    (mkUpsampler in_rate out_rate W).maxn < 0 ∧
    (mkDownsampler in_rate out_rate W).pushed = 0 ∧
    (mkDownsampler in_rate out_rate W).maxn < 0 := by
  have hg : 0 < out_rate / in_rate := div_pos hout hin
  have hmaxa_u : (mkUpsampler in_rate out_rate W).a.maxn = -1 := by
    simp [mkUpsampler, mkCircularBuffer, CircularBuffer.maxn]
  have hmaxa_d : (mkDownsampler in_rate out_rate W).a.maxn = -1 := by
    simp [mkDownsampler, mkCircularBuffer, CircularBuffer.maxn]
  refine ⟨rfl, ?_, rfl, ?_⟩
  · unfold Upsampler.maxn
    rw [hmaxa_u, Int.floor_lt]
    have harg : (((-1 : ℤ) : ℚ) - 1 - W) < 0 := by push_cast; linarith
    have := mul_neg_of_pos_of_neg hg harg
    show (mkUpsampler in_rate out_rate W).gamma * (((-1 : ℤ) : ℚ) - 1 - W) < ((0 : ℤ) : ℚ)
    show (out_rate / in_rate) * (((-1 : ℤ) : ℚ) - 1 - W) < ((0 : ℤ) : ℚ)
    simpa using this
  · unfold Downsampler.maxn
    rw [hmaxa_d, Int.floor_lt]
    have harg : (((-1 : ℤ) : ℚ) - 1) < 0 := by push_cast; linarith
    have h1 := mul_neg_of_pos_of_neg hg harg
    show (mkDownsampler in_rate out_rate W).gamma * (((-1 : ℤ) : ℚ) - 1) -
        (mkDownsampler in_rate out_rate W).W < ((0 : ℤ) : ℚ)
    show (out_rate / in_rate) * (((-1 : ℤ) : ℚ) - 1) - W < ((0 : ℤ) : ℚ)
    push_cast
    push_cast at h1
    linarith

theorem C3_warmup_window_witness :
    (mkUpsampler 1 2 30).maxn < 0 ∧ (mkDownsampler 2 1 30).maxn < 0 :=
  ⟨(C3_warmup_window 1 2 30 (by decide) (by decide) (by decide)).2.1,
   (C3_warmup_window 2 1 30 (by decide) (by decide) (by decide)).2.2.2⟩

/-- Running only non-push operations leaves an Upsampler unchanged:
`evaluate` is `const` and the bound queries do not mutate. -/
theorem Upsampler.runOps_push_free (u : Upsampler) (ops : List ResampleOp)
    (h : ∀ op ∈ ops, op.isPush = false) : u.runOps ops = u := by
  induction ops with
  | nil => rfl
  | cons op rest ih =>
    cases op with
    | push x =>
      have := h _ (List.mem_cons_self _ _)
      simp [ResampleOp.isPush] at this
    | eval n =>
      show u.runOps rest = u
      exact ih (fun op hop => h op (List.mem_cons_of_mem _ hop))

/-- Running only non-push operations leaves a Downsampler unchanged. -/
theorem Downsampler.runOps_keeps_state (d : Downsampler) (ops : List ResampleOp)
    (h : ∀ op ∈ ops, op.isPush = false) : d.runOps ops = d := by
  induction ops with
  | nil => rfl
  | cons op rest ih =>
    cases op with
    | push x =>
      have := h _ (List.mem_cons_self _ _)
      simp [ResampleOp.isPush] at this
    | eval n =>
      show d.runOps rest = d
      exact ih (fun op hop => h op (List.mem_cons_of_mem _ hop))

/-- C9: `evaluate(n)` is a pure function of the current store contents: any
sequence of operations containing no `push` leaves the resampler state
unchanged, so two calls to `evaluate` with the same output index `n` and no
intervening `push` return identical results — for the Upsampler and the
Downsampler alike. -/
theorem C9_evaluate_deterministic :
    (∀ (u : Upsampler) (ops : List ResampleOp) (n : ℤ),
      (∀ op ∈ ops, op.isPush = false) →
      (u.runOps ops).evaluate n = u.evaluate n) ∧
    (∀ (d : Downsampler) (ops : List ResampleOp) (n : ℤ),
      (∀ op ∈ ops, op.isPush = false) →
      (d.runOps ops).evaluate n = d.evaluate n) := by
  constructor
  · intro u ops n h
    rw [Upsampler.runOps_push_free u ops h]
  · intro d ops n h
    rw [Downsampler.runOps_keeps_state d ops h]

theorem C9_evaluate_deterministic_witness :
    ((mkUpsampler 1 2 30).runOps [.eval 5]).evaluate 5 = (mkUpsampler 1 2 30).evaluate 5 ∧
    ((mkDownsampler 2 1 30).runOps [.eval 0]).evaluate 0 = (mkDownsampler 2 1 30).evaluate 0 :=
  ⟨C9_evaluate_deterministic.1 (mkUpsampler 1 2 30) [.eval 5] 5 (by decide),
   C9_evaluate_deterministic.2 (mkDownsampler 2 1 30) [.eval 0] 0 (by decide)⟩

theorem C1_index_window_witness :
    ((mkCircularBuffer 3 (0 : ℤ)).pushList [4, 5]).minn = -2 ∧
    ((mkCircularBuffer 3 (0 : ℤ)).pushList [4, 5]).maxn = 1 := by
  have h := C1_index_window 3 0 [4, 5]
  exact ⟨by rw [h.1]; decide, by rw [h.2.1]; decide⟩

theorem C7_upsampler_window_formulas_witness :
    (mkUpsampler 1 2 30).minn =
      upsamplerMinIndexSpec (mkUpsampler 1 2 30).a.maxn ((mkUpsampler 1 2 30).a.size : ℤ)
        (mkUpsampler 1 2 30).gamma (mkUpsampler 1 2 30).W ∧
    (mkUpsampler 1 2 30).maxn =
      upsamplerMaxIndexSpec (mkUpsampler 1 2 30).a.maxn
        (mkUpsampler 1 2 30).gamma (mkUpsampler 1 2 30).W :=
  C7_upsampler_window_formulas (mkUpsampler 1 2 30)
